import Mathlib

/-!
Shallow embedding of the ringbuf fixed-capacity circular queue
(src/ringbuf.h, src/ringbuf.c) and proofs of its specification.

The backing storage is modelled as a flat list of bytes (natural numbers),
pointers as offsets into it, and the two C callbacks as an optional copy
function and a flag recording whether a print callback is installed
(printing never affects buffer state).  C return codes are kept as Int
values 0 and -1.
-/

/-- Model of memcpy into a buffer: writeBytes bs off data overwrites the
bytes of the byte list bs starting at offset off with the bytes of data,
keeping the length of bs fixed (bytes of data falling beyond the end of bs
are dropped). -/
def writeBytes : List Nat → Nat → List Nat → List Nat
  | [], _, _ => []
  | b :: bs, o+1, ds => b :: writeBytes bs o ds
  | _ :: bs, 0, d :: ds => d :: writeBytes bs 0 ds
  | b :: bs, 0, [] => b :: bs

/-- Model of reading a memory region: the n bytes of the byte list bs
starting at offset off (fewer if the list ends first). -/
def readBytes (bs : List Nat) (off n : Nat) : List Nat :=
  (bs.drop off).take n

/-- Model of struct ringbuf from src/ringbuf.h.  buf is the backing byte
region; elem_copy models the optional ops.elem_copy callback as a function
from the old destination bytes and the source bytes to the bytes it writes;
elem_print records only whether the optional ops.elem_print callback is
installed, since printing never changes buffer state. -/
structure ringbuf where
  buf : List Nat
  capacity : Nat
  elem_sz : Nat
  head : Nat
  tail : Nat
  count : Nat
  elem_copy : Option (List Nat → List Nat → List Nat)
  elem_print : Bool

/-- Model of ringbuf_init (src/ringbuf.c lines 33 to 49): fails (C return -1,
here none) exactly when the storage pointer buf is NULL, otherwise returns
the initialized struct (C return 0).  The rb out-pointer of the C function
is the returned value itself. -/
def ringbuf_init (buf : Option (List Nat)) (n_elem elem_sz : Nat) : Option ringbuf :=
  match buf with
  | none => none
  | some b =>
    some { buf := b, capacity := n_elem, elem_sz := elem_sz,
           head := 0, tail := 0, count := 0,
           elem_copy := none, elem_print := false }

/-- Model of ringbuf_full (src/ringbuf.c lines 55 to 58). -/
def ringbuf_full (rb : ringbuf) : Bool :=
  rb.count == rb.capacity

/-- Model of ringbuf_empty (src/ringbuf.c lines 64 to 67). -/
def ringbuf_empty (rb : ringbuf) : Bool :=
  0 == rb.count

/-- Bytes deposited in an elem_sz byte destination region by one element
copy: the installed elem_copy callback applied to the old destination bytes
and the source bytes, or (as memcpy(dst, src, elem_sz) does) the first
elem_sz bytes of the source when no callback is installed.  The result is
truncated to elem_sz bytes, the extent of the region the callback contract
allows writing. -/
def copyElem (copyFn : Option (List Nat → List Nat → List Nat))
    (sz : Nat) (dst src : List Nat) : List Nat :=
  match copyFn with
  | some f => (f dst src).take sz
  | none => src.take sz

/-- Model of ringbuf_add_tail (src/ringbuf.c lines 89 to 122).  elem is the
source pointer, none modelling NULL.  Returns the new state and the C
return value. -/
def ringbuf_add_tail (rb : ringbuf) (elem : Option (List Nat)) : ringbuf × Int :=
  match elem with
  | none => (rb, 0)
  | some e =>
    if ringbuf_full rb then
      (rb, -1)
    else
      let off := rb.elem_sz * rb.tail
      ({ rb with
          buf := writeBytes rb.buf off
            (copyElem rb.elem_copy rb.elem_sz (readBytes rb.buf off rb.elem_sz) e),
          tail := (rb.tail + 1) % rb.capacity,
          count := rb.count + 1 }, 0)

/-- Model of ringbuf_remove_head (src/ringbuf.c lines 129 to 169).  dest
models the destination pointer: none is NULL, some d a caller region
currently holding bytes d.  Returns the new state, the bytes stored into
the destination (none when the call fails or dest is NULL), and the C
return value. -/
def ringbuf_remove_head (rb : ringbuf) (dest : Option (List Nat)) :
    ringbuf × Option (List Nat) × Int :=
  if ringbuf_empty rb then
    (rb, none, -1)
  else
    let off := rb.elem_sz * rb.head
    ({ rb with
        buf := writeBytes rb.buf off (List.replicate rb.elem_sz 0),
        head := (rb.head + 1) % rb.capacity,
        count := rb.count - 1 },
     dest.map (fun d => copyElem rb.elem_copy rb.elem_sz d (readBytes rb.buf off rb.elem_sz)),
     0)

/-- Bytes of the element stored in slot j of the buffer. -/
def slotRead (rb : ringbuf) (j : Nat) : List Nat :=
  readBytes rb.buf (rb.elem_sz * j) rb.elem_sz

/-- Contents of the buffer from head to tail, as the list of element byte
strings, following the traversal of ringbuf_print_elems (src/ringbuf.c
lines 71 to 81): element i lives in slot (head + i) % capacity. -/
def toListRB (rb : ringbuf) : List (List Nat) :=
  (List.range rb.count).map (fun i => slotRead rb ((rb.head + i) % rb.capacity))

/-- Folds ringbuf_add_tail over a list of elements, also reporting whether
every add returned 0; stops at the first failing add. -/
def enqueueAll : ringbuf → List (List Nat) → ringbuf × Bool
  | rb, [] => (rb, true)
  | rb, e :: es =>
    let r := ringbuf_add_tail rb (some e)
    if r.2 = 0 then enqueueAll r.1 es else (r.1, false)

/-- Performs n ringbuf_remove_head calls, each with a present destination
(a zeroed caller scratch region), collecting the removed elements in order;
stops at the first failing removal. -/
def drain : ringbuf → Nat → ringbuf × List (List Nat)
  | rb, 0 => (rb, [])
  | rb, n+1 =>
    match ringbuf_remove_head rb (some (List.replicate rb.elem_sz 0)) with
    | (rb2, some e, _) =>
      let p := drain rb2 n
      (p.1, e :: p.2)
    | (rb2, none, _) => (rb2, [])

/-- Well-formedness of a ringbuf state: the documented storage-size
precondition of ringbuf_init together with the index bookkeeping invariants
the operations maintain. -/
structure Valid (rb : ringbuf) : Prop where
  count_le : rb.count ≤ rb.capacity
  head_lt : 0 < rb.capacity → rb.head < rb.capacity
  tail_eq : rb.tail = (rb.head + rb.count) % rb.capacity
  buf_len : rb.elem_sz * rb.capacity ≤ rb.buf.length

/-- States reachable from a successful ringbuf_init (whose storage meets the
documented size precondition) by any sequence of ringbuf_add_tail and
ringbuf_remove_head calls. -/
inductive Reachable : ringbuf → Prop where
  | init (b : List Nat) (n e : Nat) (rb : ringbuf) :
      n * e ≤ b.length → ringbuf_init (some b) n e = some rb → Reachable rb
  | add (rb : ringbuf) (elem : Option (List Nat)) :
      Reachable rb → Reachable (ringbuf_add_tail rb elem).1
  | remove (rb : ringbuf) (dest : Option (List Nat)) :
      Reachable rb → Reachable (ringbuf_remove_head rb dest).1

lemma length_writeBytes (bs : List Nat) (o : Nat) (ds : List Nat) :
    (writeBytes bs o ds).length = bs.length := by
  induction bs generalizing o ds with
  | nil => simp [writeBytes]
  | cons b bs ih =>
    match o, ds with
    | o+1, ds => simp [writeBytes, ih]
    | 0, [] => simp [writeBytes]
    | 0, d :: ds => simp [writeBytes, ih]

lemma getElem?_writeBytes (bs : List Nat) (o : Nat) (ds : List Nat) (i : Nat) :
    (writeBytes bs o ds)[i]? =
      if o ≤ i ∧ i < o + ds.length ∧ i < bs.length then ds[i - o]? else bs[i]? := by
  induction bs generalizing o ds i with
  | nil => simp [writeBytes]
  | cons b bs ih =>
    match o, ds with
    | o+1, ds =>
      match i with
      | 0 => simp [writeBytes]
      | i+1 =>
        have hiff : (o + 1 ≤ i + 1 ∧ i + 1 < o + 1 + ds.length ∧ i + 1 < (b :: bs).length) ↔
            (o ≤ i ∧ i < o + ds.length ∧ i < bs.length) := by
          simp only [List.length_cons]; omega
        simp only [writeBytes, List.getElem?_cons_succ, ih, hiff, Nat.succ_sub_succ]
    | 0, [] =>
      simp [writeBytes]
    | 0, d :: ds =>
      match i with
      | 0 => simp [writeBytes]
      | i+1 =>
        have hiff : (0 ≤ i + 1 ∧ i + 1 < 0 + (d :: ds).length ∧ i + 1 < (b :: bs).length) ↔
            (0 ≤ i ∧ i < 0 + ds.length ∧ i < bs.length) := by
          simp only [List.length_cons]; omega
        simp only [writeBytes, List.getElem?_cons_succ, ih, hiff, Nat.succ_sub_succ,
          Nat.sub_zero]

lemma getElem?_readBytes (bs : List Nat) (o n i : Nat) :
    (readBytes bs o n)[i]? = if i < n then bs[o + i]? else none := by
  simp [readBytes, List.getElem?_take, List.getElem?_drop]

lemma length_readBytes (bs : List Nat) (o n : Nat) (h : o + n ≤ bs.length) :
    (readBytes bs o n).length = n := by
  simp only [readBytes, List.length_take, List.length_drop]
  omega

lemma readBytes_writeBytes_disjoint (bs : List Nat) (o o2 n : Nat) (d : List Nat)
    (h : o2 + n ≤ o ∨ o + d.length ≤ o2) :
    readBytes (writeBytes bs o d) o2 n = readBytes bs o2 n := by
  apply List.ext_getElem?
  intro j
  rw [getElem?_readBytes, getElem?_readBytes, getElem?_writeBytes]
  rcases Nat.lt_or_ge j n with hj | hj
  · rw [if_pos hj, if_pos hj, if_neg]
    omega
  · rw [if_neg (by omega), if_neg (by omega)]

lemma readBytes_writeBytes_self (bs : List Nat) (o : Nat) (d : List Nat)
    (h : o + d.length ≤ bs.length) :
    readBytes (writeBytes bs o d) o d.length = d := by
  apply List.ext_getElem?
  intro j
  rw [getElem?_readBytes, getElem?_writeBytes]
  rcases Nat.lt_or_ge j d.length with hj | hj
  · rw [if_pos hj, if_pos (by omega), Nat.add_sub_cancel_left]
  · rw [if_neg (by omega), Eq.comm]
    exact List.getElem?_eq_none hj

lemma add_tail_eq_of_full (rb : ringbuf) (e : List Nat) (h : rb.count = rb.capacity) :
    ringbuf_add_tail rb (some e) = (rb, -1) := by
  simp [ringbuf_add_tail, ringbuf_full, h]

lemma add_tail_eq_of_not_full (rb : ringbuf) (e : List Nat) (h : rb.count ≠ rb.capacity) :
    ringbuf_add_tail rb (some e) =
      ({ rb with
          buf := writeBytes rb.buf (rb.elem_sz * rb.tail)
            (copyElem rb.elem_copy rb.elem_sz
              (readBytes rb.buf (rb.elem_sz * rb.tail) rb.elem_sz) e),
          tail := (rb.tail + 1) % rb.capacity,
          count := rb.count + 1 }, 0) := by
  simp [ringbuf_add_tail, ringbuf_full, h]

lemma remove_head_eq_of_empty (rb : ringbuf) (dest : Option (List Nat)) (h : rb.count = 0) :
    ringbuf_remove_head rb dest = (rb, none, -1) := by
  simp [ringbuf_remove_head, ringbuf_empty, h]

lemma remove_head_eq_of_not_empty (rb : ringbuf) (dest : Option (List Nat)) (h : rb.count ≠ 0) :
    ringbuf_remove_head rb dest =
      ({ rb with
          buf := writeBytes rb.buf (rb.elem_sz * rb.head) (List.replicate rb.elem_sz 0),
          head := (rb.head + 1) % rb.capacity,
          count := rb.count - 1 },
       dest.map (fun d => copyElem rb.elem_copy rb.elem_sz d
         (readBytes rb.buf (rb.elem_sz * rb.head) rb.elem_sz)),
       0) := by
  simp [ringbuf_remove_head, ringbuf_empty, Ne.symm h]

lemma slot_offset_le (esz cap len j : Nat) (h : esz * cap ≤ len) (hj : j < cap) :
    esz * j + esz ≤ len := by
  have h1 : esz * j + esz = esz * (j + 1) := by ring
  have h2 : esz * (j + 1) ≤ esz * cap := Nat.mul_le_mul_left esz (Nat.succ_le_of_lt hj)
  omega

lemma slot_regions_disjoint (esz j k : Nat) (h : j ≠ k) :
    esz * j + esz ≤ esz * k ∨ esz * k + esz ≤ esz * j := by
  have ej : esz * (j + 1) = esz * j + esz := by ring
  have ek : esz * (k + 1) = esz * k + esz := by ring
  rcases Nat.lt_or_ge j k with hlt | hge
  · have h2 : esz * (j + 1) ≤ esz * k := Nat.mul_le_mul_left esz hlt
    omega
  · have hkj : k < j := Nat.lt_of_le_of_ne hge (Ne.symm h)
    have h2 : esz * (k + 1) ≤ esz * j := Nat.mul_le_mul_left esz hkj
    omega

lemma mod_slot_ne (cap h i j : Nat) (hi : i < cap) (hj : j < cap) (hij : i ≠ j) :
    (h + i) % cap ≠ (h + j) % cap := by
  intro heq
  have h2 : i % cap = j % cap := Nat.ModEq.add_left_cancel' h heq
  rw [Nat.mod_eq_of_lt hi, Nat.mod_eq_of_lt hj] at h2
  exact hij h2

lemma slotRead_writeBytes_other (rb : ringbuf) (d : List Nat) (j k : Nat)
    (hlen : d.length = rb.elem_sz) (hne : j ≠ k) :
    readBytes (writeBytes rb.buf (rb.elem_sz * k) d) (rb.elem_sz * j) rb.elem_sz =
      readBytes rb.buf (rb.elem_sz * j) rb.elem_sz := by
  apply readBytes_writeBytes_disjoint
  rw [hlen]
  exact slot_regions_disjoint rb.elem_sz j k hne

lemma add_tail_spec (rb : ringbuf) (e : List Nat) (hv : Valid rb)
    (hc : rb.elem_copy = none) (hsz : e.length = rb.elem_sz)
    (hlt : rb.count < rb.capacity) :
    (ringbuf_add_tail rb (some e)).2 = 0 ∧
    Valid (ringbuf_add_tail rb (some e)).1 ∧
    (ringbuf_add_tail rb (some e)).1.elem_copy = none ∧
    (ringbuf_add_tail rb (some e)).1.elem_sz = rb.elem_sz ∧
    (ringbuf_add_tail rb (some e)).1.capacity = rb.capacity ∧
    (ringbuf_add_tail rb (some e)).1.count = rb.count + 1 ∧
    toListRB (ringbuf_add_tail rb (some e)).1 = toListRB rb ++ [e] := by
  have hcap : 0 < rb.capacity := Nat.lt_of_le_of_lt (Nat.zero_le _) hlt
  have htail : rb.tail < rb.capacity := by
    rw [hv.tail_eq]; exact Nat.mod_lt _ hcap
  have hwr : copyElem rb.elem_copy rb.elem_sz
      (readBytes rb.buf (rb.elem_sz * rb.tail) rb.elem_sz) e = e := by
    rw [hc]
    show e.take rb.elem_sz = e
    rw [← hsz, List.take_length]
  rw [add_tail_eq_of_not_full rb e (Nat.ne_of_lt hlt), hwr]
  refine ⟨rfl, ⟨hlt, fun h => hv.head_lt h, ?_, ?_⟩, hc, rfl, rfl, rfl, ?_⟩
  · show (rb.tail + 1) % rb.capacity = (rb.head + (rb.count + 1)) % rb.capacity
    rw [hv.tail_eq, Nat.mod_add_mod, Nat.add_assoc]
  · show rb.elem_sz * rb.capacity ≤ (writeBytes rb.buf (rb.elem_sz * rb.tail) e).length
    rw [length_writeBytes]
    exact hv.buf_len
  · show (List.range (rb.count + 1)).map _ = _
    simp only [toListRB, slotRead]
    rw [List.range_succ, List.map_append]
    congr 1
    · apply List.map_congr_left
      intro i hi
      rw [List.mem_range] at hi
      have hne : (rb.head + i) % rb.capacity ≠ rb.tail := by
        rw [hv.tail_eq]
        exact mod_slot_ne rb.capacity rb.head i rb.count
          (Nat.lt_trans hi hlt) hlt (Nat.ne_of_lt hi)
      exact slotRead_writeBytes_other rb e ((rb.head + i) % rb.capacity) rb.tail hsz hne
    · simp only [List.map_cons, List.map_nil]
      have hmod : (rb.head + rb.count) % rb.capacity = rb.tail := hv.tail_eq.symm
      rw [hmod]
      have hbound : rb.elem_sz * rb.tail + e.length ≤ rb.buf.length := by
        rw [hsz]
        exact slot_offset_le rb.elem_sz rb.capacity rb.buf.length rb.tail hv.buf_len htail
      have hself := readBytes_writeBytes_self rb.buf (rb.elem_sz * rb.tail) e hbound
      rw [hsz] at hself
      rw [hself]

lemma remove_head_spec (rb : ringbuf) (d : List Nat) (hv : Valid rb)
    (hc : rb.elem_copy = none) (h0 : rb.count ≠ 0) :
    (ringbuf_remove_head rb (some d)).2.2 = 0 ∧
    (ringbuf_remove_head rb (some d)).2.1 = some (slotRead rb rb.head) ∧
    Valid (ringbuf_remove_head rb (some d)).1 ∧
    (ringbuf_remove_head rb (some d)).1.count = rb.count - 1 ∧
    (ringbuf_remove_head rb (some d)).1.elem_copy = none ∧
    (ringbuf_remove_head rb (some d)).1.elem_sz = rb.elem_sz ∧
    toListRB rb = slotRead rb rb.head :: toListRB (ringbuf_remove_head rb (some d)).1 := by
  have hcap : 0 < rb.capacity := Nat.lt_of_lt_of_le (Nat.pos_of_ne_zero h0) hv.count_le
  have hhead : rb.head < rb.capacity := hv.head_lt hcap
  have hrlen : (readBytes rb.buf (rb.elem_sz * rb.head) rb.elem_sz).length = rb.elem_sz :=
    length_readBytes _ _ _ (slot_offset_le _ _ _ _ hv.buf_len hhead)
  have hout : copyElem rb.elem_copy rb.elem_sz d
      (readBytes rb.buf (rb.elem_sz * rb.head) rb.elem_sz) = slotRead rb rb.head := by
    rw [hc]
    show (readBytes rb.buf (rb.elem_sz * rb.head) rb.elem_sz).take rb.elem_sz = _
    rw [List.take_of_length_le (le_of_eq hrlen)]
    rfl
  obtain ⟨c, hcnt⟩ : ∃ c, rb.count = c + 1 := ⟨rb.count - 1, by omega⟩
  rw [remove_head_eq_of_not_empty rb (some d) h0]
  refine ⟨rfl, ?_, ⟨?_, fun _ => Nat.mod_lt _ hcap, ?_, ?_⟩, rfl, hc, rfl, ?_⟩
  · exact congrArg some hout
  · show rb.count - 1 ≤ rb.capacity
    have := hv.count_le
    omega
  · show rb.tail = ((rb.head + 1) % rb.capacity + (rb.count - 1)) % rb.capacity
    rw [hv.tail_eq, Nat.mod_add_mod, hcnt]
    congr 1
    omega
  · show rb.elem_sz * rb.capacity ≤
      (writeBytes rb.buf (rb.elem_sz * rb.head) (List.replicate rb.elem_sz 0)).length
    rw [length_writeBytes]
    exact hv.buf_len
  · show toListRB rb = _
    rw [toListRB, hcnt, List.range_succ_eq_map, List.map_cons, List.map_map]
    congr 1
    · rw [Nat.add_zero, Nat.mod_eq_of_lt hhead]
    · simp only [toListRB, Nat.add_sub_cancel]
      apply List.map_congr_left
      intro i hi
      rw [List.mem_range] at hi
      have hcnt_le := hv.count_le
      simp only [Function.comp, Function.comp_apply, slotRead, Nat.succ_eq_add_one]
      have hmm : ((rb.head + 1) % rb.capacity + i) % rb.capacity =
          (rb.head + (i + 1)) % rb.capacity := by
        rw [Nat.mod_add_mod]
        congr 1
        omega
      have hne : (rb.head + (i + 1)) % rb.capacity ≠ rb.head := by
        have h2 := mod_slot_ne rb.capacity rb.head (i + 1) 0 (by omega) hcap (by omega)
        simpa [Nat.mod_eq_of_lt hhead] using h2
      rw [hmm]
      exact (slotRead_writeBytes_other rb (List.replicate rb.elem_sz 0)
        ((rb.head + (i + 1)) % rb.capacity) rb.head
        (List.length_replicate rb.elem_sz 0) hne).symm

lemma drain_succ (rb : ringbuf) (n : Nat) :
    drain rb (n + 1) =
      match ringbuf_remove_head rb (some (List.replicate rb.elem_sz 0)) with
      | (rb2, some e, _) => ((drain rb2 n).1, e :: (drain rb2 n).2)
      | (rb2, none, _) => (rb2, []) := rfl

lemma drain_spec (n : Nat) : ∀ (rb : ringbuf), Valid rb → rb.elem_copy = none →
    n = rb.count → (drain rb n).2 = toListRB rb ∧ (drain rb n).1.count = 0 := by
  induction n with
  | zero =>
    intro rb hv hc h
    constructor
    · simp [drain, toListRB, ← h]
    · simp [drain, ← h]
  | succ n ih =>
    intro rb hv hc h
    have h0 : rb.count ≠ 0 := by omega
    obtain ⟨hz, hout, hv2, hcnt2, hc2, hsz2, hlist⟩ :=
      remove_head_spec rb (List.replicate rb.elem_sz 0) hv hc h0
    have heq : ringbuf_remove_head rb (some (List.replicate rb.elem_sz 0)) =
        ((ringbuf_remove_head rb (some (List.replicate rb.elem_sz 0))).1,
         some (slotRead rb rb.head), 0) := by
      rw [← hout, ← hz]
    have hn : n = (ringbuf_remove_head rb (some (List.replicate rb.elem_sz 0))).1.count := by
      rw [hcnt2]; omega
    obtain ⟨ih1, ih2⟩ := ih _ hv2 hc2 hn
    rw [drain_succ, heq]
    refine ⟨?_, ih2⟩
    show slotRead rb rb.head ::
        (drain (ringbuf_remove_head rb (some (List.replicate rb.elem_sz 0))).1 n).2 =
      toListRB rb
    rw [ih1]
    exact hlist.symm

lemma enqueueAll_spec (es : List (List Nat)) : ∀ (rb : ringbuf), Valid rb →
    rb.elem_copy = none → (∀ e ∈ es, e.length = rb.elem_sz) →
    rb.count + es.length ≤ rb.capacity →
    (enqueueAll rb es).2 = true ∧ Valid (enqueueAll rb es).1 ∧
    (enqueueAll rb es).1.elem_copy = none ∧
    (enqueueAll rb es).1.elem_sz = rb.elem_sz ∧
    (enqueueAll rb es).1.count = rb.count + es.length ∧
    toListRB (enqueueAll rb es).1 = toListRB rb ++ es := by
  induction es with
  | nil =>
    intro rb hv hc _ _
    exact ⟨rfl, hv, hc, rfl, by simp [enqueueAll], by simp [enqueueAll]⟩
  | cons e es ih =>
    intro rb hv hc hsz hcap
    have hlt : rb.count < rb.capacity := by
      simp only [List.length_cons] at hcap
      omega
    obtain ⟨hz, hv2, hc2, hsz2, hcap2, hcnt2, hlist2⟩ :=
      add_tail_spec rb e hv hc (hsz e (by simp)) hlt
    have hstep : enqueueAll rb (e :: es) = enqueueAll (ringbuf_add_tail rb (some e)).1 es := by
      simp [enqueueAll, hz]
    obtain ⟨k1, k2, k3, k4, k5, k6⟩ := ih (ringbuf_add_tail rb (some e)).1 hv2 hc2
      (by intro x hx; rw [hsz2]; exact hsz x (List.mem_cons_of_mem e hx))
      (by rw [hcnt2, hcap2]; simp only [List.length_cons] at hcap; omega)
    refine ⟨by rw [hstep]; exact k1, by rw [hstep]; exact k2, by rw [hstep]; exact k3,
      by rw [hstep, k4, hsz2], by rw [hstep, k5, hcnt2]; simp only [List.length_cons]; omega,
      ?_⟩
    rw [hstep, k6, hlist2]
    simp

/-- Invariant of every reachable ringbuf state. -/
structure RBInv (rb : ringbuf) : Prop where
  count_le : rb.count ≤ rb.capacity
  head_lt : 0 < rb.capacity → rb.head < rb.capacity
  head_zero : rb.capacity = 0 → rb.head = 0
  tail_eq : rb.tail = (rb.head + rb.count) % rb.capacity
  buf_len : rb.elem_sz * rb.capacity ≤ rb.buf.length

lemma reachable_inv (rb : ringbuf) (h : Reachable rb) : RBInv rb := by
  induction h with
  | init b n e rb hlen hinit =>
    simp only [ringbuf_init, Option.some.injEq] at hinit
    subst hinit
    refine ⟨Nat.zero_le _, fun h => h, fun _ => rfl, ?_, ?_⟩
    · show (0 : Nat) = (0 + 0) % n
      simp
    · show e * n ≤ b.length
      rw [Nat.mul_comm]
      exact hlen
  | add rb elem hr ih =>
    cases elem with
    | none => exact ih
    | some e =>
      by_cases hf : rb.count = rb.capacity
      · rw [add_tail_eq_of_full rb e hf]
        exact ih
      · rw [add_tail_eq_of_not_full rb e hf]
        have hlt : rb.count < rb.capacity := Nat.lt_of_le_of_ne ih.count_le hf
        have hcap : 0 < rb.capacity := Nat.lt_of_le_of_lt (Nat.zero_le _) hlt
        refine ⟨?_, ?_, ?_, ?_, ?_⟩
        · show rb.count + 1 ≤ rb.capacity
          omega
        · intro h
          exact ih.head_lt h
        · show rb.capacity = 0 → rb.head = 0
          intro h0
          omega
        · show (rb.tail + 1) % rb.capacity = (rb.head + (rb.count + 1)) % rb.capacity
          rw [ih.tail_eq, Nat.mod_add_mod, Nat.add_assoc]
        · show rb.elem_sz * rb.capacity ≤
            (writeBytes rb.buf (rb.elem_sz * rb.tail)
              (copyElem rb.elem_copy rb.elem_sz
                (readBytes rb.buf (rb.elem_sz * rb.tail) rb.elem_sz) e)).length
          rw [length_writeBytes]
          exact ih.buf_len
  | remove rb dest hr ih =>
    by_cases h0 : rb.count = 0
    · rw [remove_head_eq_of_empty rb dest h0]
      exact ih
    · rw [remove_head_eq_of_not_empty rb dest h0]
      have hcap : 0 < rb.capacity := Nat.lt_of_lt_of_le (Nat.pos_of_ne_zero h0) ih.count_le
      refine ⟨?_, ?_, ?_, ?_, ?_⟩
      · show rb.count - 1 ≤ rb.capacity
        have := ih.count_le
        omega
      · intro _
        show (rb.head + 1) % rb.capacity < rb.capacity
        exact Nat.mod_lt _ hcap
      · show rb.capacity = 0 → (rb.head + 1) % rb.capacity = 0
        intro hh
        omega
      · show rb.tail = ((rb.head + 1) % rb.capacity + (rb.count - 1)) % rb.capacity
        rw [ih.tail_eq, Nat.mod_add_mod]
        congr 1
        omega
      · show rb.elem_sz * rb.capacity ≤
          (writeBytes rb.buf (rb.elem_sz * rb.head) (List.replicate rb.elem_sz 0)).length
        rw [length_writeBytes]
        exact ih.buf_len

/-- Encoding of a small non-negative C int as 4 little-endian bytes. -/
def encI (v : Nat) : List Nat :=
  [v % 256, (v / 256) % 256, (v / 65536) % 256, (v / 16777216) % 256]

/-- A ringbuf successfully initialized with capacity 0 over an empty
storage region (ringbuf_init only rejects NULL storage). -/
def rbCapZero : ringbuf :=
  { buf := [], capacity := 0, elem_sz := 1, head := 0, tail := 0, count := 0,
    elem_copy := none, elem_print := false }

/-- A freshly initialized ringbuf with capacity 4 and element size 2 over
8 zero bytes. -/
def rbInit4 : ringbuf :=
  { buf := List.replicate 8 0, capacity := 4, elem_sz := 2, head := 0, tail := 0,
    count := 0, elem_copy := none, elem_print := false }

/-- A full one-slot ringbuf holding the single byte 5. -/
def rbFull1 : ringbuf :=
  { buf := [5], capacity := 1, elem_sz := 1, head := 0, tail := 0, count := 1,
    elem_copy := none, elem_print := false }

/-- An empty two-slot ringbuf whose head and tail sit mid-buffer, so that
adding two elements wraps around the end of the storage. -/
def rbWrap : ringbuf :=
  { buf := [0, 0], capacity := 2, elem_sz := 1, head := 1, tail := 1, count := 0,
    elem_copy := none, elem_print := false }

/-- Storage for the end-to-end scenario: 8 slots of 4 bytes. -/
def c8buf : List Nat := List.replicate 32 0

/-- Scenario state right after initialization: capacity 8, element size 4. -/
def c8s0 : ringbuf :=
  { buf := c8buf, capacity := 8, elem_sz := 4, head := 0, tail := 0, count := 0,
    elem_copy := none, elem_print := false }

/-- The eight scenario values 1..8, encoded as 4-byte ints. -/
def c8vals : List (List Nat) :=
  [encI 1, encI 2, encI 3, encI 4, encI 5, encI 6, encI 7, encI 8]

/-- Scenario state after inserting 1..8. -/
def c8s1 : ringbuf := (enqueueAll c8s0 c8vals).1

/-- Scenario state after removing one element (the value 1). -/
def c8s2 : ringbuf := (ringbuf_remove_head c8s1 (some (encI 0))).1

/-- Scenario state after inserting 90 into the slot formerly holding 1. -/
def c8s3 : ringbuf := (ringbuf_add_tail c8s2 (some (encI 90))).1

/-- Scenario state after draining the remaining eight elements. -/
def c8s4 : ringbuf := (drain c8s3 8).1

/-- C1 (amended): every state reachable from a successful ringbuf_init by
any sequence of ringbuf_add_tail and ringbuf_remove_head calls satisfies
0 ≤ count ≤ capacity and tail = (head + count) mod capacity, and head and
tail are valid indices in [0, capacity) whenever capacity > 0; for
capacity = 0, which a successful ringbuf_init permits, head, tail and
count all stay 0 (there is no valid index in that case). -/
theorem reachable_invariants_hold (rb : ringbuf) (h : Reachable rb) :
    rb.count ≤ rb.capacity ∧
    (0 < rb.capacity → rb.head < rb.capacity ∧ rb.tail < rb.capacity) ∧
    (rb.capacity = 0 → rb.head = 0 ∧ rb.tail = 0 ∧ rb.count = 0) ∧
    rb.tail = (rb.head + rb.count) % rb.capacity := by
  obtain ⟨h1, h2, h3, h4, h5⟩ := reachable_inv rb h
  refine ⟨h1, fun hc => ⟨h2 hc, ?_⟩, fun hc => ⟨h3 hc, ?_, ?_⟩, h4⟩
  · rw [h4]
    exact Nat.mod_lt _ hc
  · have hcnt : rb.count = 0 := by omega
    rw [h4, h3 hc, hcnt, hc]
  · omega

/-- C1 (witness): the invariants instantiated at a freshly initialized
capacity 4 buffer. -/
theorem reachable_invariants_hold_witness :
    rbInit4.count ≤ rbInit4.capacity ∧
    (0 < rbInit4.capacity → rbInit4.head < rbInit4.capacity ∧ rbInit4.tail < rbInit4.capacity) ∧
    (rbInit4.capacity = 0 → rbInit4.head = 0 ∧ rbInit4.tail = 0 ∧ rbInit4.count = 0) ∧
    rbInit4.tail = (rbInit4.head + rbInit4.count) % rbInit4.capacity :=
  reachable_invariants_hold rbInit4
    (Reachable.init (List.replicate 8 0) 4 2 rbInit4 (by decide) rfl)

/-- C1 (counterexample): the state successfully initialized with capacity 0
is reachable, yet its head and tail (both 0) are not valid indices in
[0, capacity) = [0, 0), so the claim as stated fails on that state. -/
theorem capacity_zero_reachable_breaks_index_bounds :
    ringbuf_init (some []) 0 1 = some rbCapZero ∧ Reachable rbCapZero ∧
    ¬ (rbCapZero.head < rbCapZero.capacity ∧ rbCapZero.tail < rbCapZero.capacity) :=
  ⟨rfl, Reachable.init [] 0 1 rbCapZero (by decide) rfl, by decide⟩

/-- C2: FIFO round trip.  From any well-formed empty buffer state (head
anywhere, so wraparound of the modular indices is included) with the
default byte-wise copy, successfully adding the elements xs with add_tail
and then removing xs.length times with remove_head (with a destination)
returns exactly xs, in order. -/
theorem fifo_round_trip (rb : ringbuf) (xs : List (List Nat)) (hv : Valid rb)
    (hc : rb.elem_copy = none) (h0 : rb.count = 0)
    (hlen : xs.length ≤ rb.capacity) (hsz : ∀ e ∈ xs, e.length = rb.elem_sz) :
    (enqueueAll rb xs).2 = true ∧ (drain (enqueueAll rb xs).1 xs.length).2 = xs := by
  obtain ⟨k1, k2, k3, k4, k5, k6⟩ := enqueueAll_spec xs rb hv hc hsz (by omega)
  have hn : xs.length = (enqueueAll rb xs).1.count := by
    rw [k5, h0]
    omega
  obtain ⟨d1, d2⟩ := drain_spec xs.length (enqueueAll rb xs).1 k2 k3 hn
  refine ⟨k1, ?_⟩
  rw [d1, k6]
  have hemp : toListRB rb = [] := by simp [toListRB, h0]
  rw [hemp, List.nil_append]

/-- C2 (witness): the round trip at a concrete two-slot buffer whose empty
position sits at index 1, so both stores wrap across the end of storage. -/
theorem fifo_round_trip_witness :
    (enqueueAll rbWrap [[7], [9]]).2 = true ∧
    (drain (enqueueAll rbWrap [[7], [9]]).1 2).2 = [[7], [9]] :=
  fifo_round_trip rbWrap [[7], [9]] ⟨by decide, by decide, by decide, by decide⟩
    rfl rfl (by decide) (by decide)

/-- C3: adding a present element to a full buffer (count = capacity) fails
with the Full error (-1) and returns the state completely unchanged,
including every stored byte. -/
theorem add_tail_full_fails_unchanged (rb : ringbuf) (e : List Nat)
    (h : rb.count = rb.capacity) :
    ringbuf_add_tail rb (some e) = (rb, -1) :=
  add_tail_eq_of_full rb e h

/-- C3 (witness): adding to a concrete full one-slot buffer. -/
theorem add_tail_full_fails_unchanged_witness :
    ringbuf_add_tail rbFull1 (some [9]) = (rbFull1, -1) :=
  add_tail_full_fails_unchanged rbFull1 [9] rfl

/-- C4: removing from an empty buffer (count = 0) fails with the Empty
error (-1) for every destination, present or absent, and returns the state
completely unchanged. -/
theorem remove_head_empty_fails_unchanged (rb : ringbuf) (dest : Option (List Nat))
    (h : rb.count = 0) :
    ringbuf_remove_head rb dest = (rb, none, -1) :=
  remove_head_eq_of_empty rb dest h

/-- C4 (witness): removing from a concrete empty buffer with a present
destination. -/
theorem remove_head_empty_fails_unchanged_witness :
    ringbuf_remove_head rbWrap (some [3]) = (rbWrap, none, -1) :=
  remove_head_empty_fails_unchanged rbWrap (some [3]) rfl

/-- C5: add_tail with a NULL element reference is a no-op reporting
success (0) on every buffer state, full ones included: the NULL check
precedes the full check in ringbuf_add_tail. -/
theorem add_tail_null_elem_noop (rb : ringbuf) :
    ringbuf_add_tail rb none = (rb, 0) := rfl

/-- C6: ringbuf_init fails exactly when the storage reference is NULL, and
for every non-null storage and every capacity and element size (zero
included) it succeeds with head = tail = count = 0 and no copy or print
customization installed. -/
theorem init_null_iff_and_zero_state (o : Option (List Nat)) (n e : Nat) :
    (ringbuf_init o n e = none ↔ o = none) ∧
    (∀ b, o = some b →
      ringbuf_init o n e = some { buf := b, capacity := n, elem_sz := e,
                                  head := 0, tail := 0, count := 0,
                                  elem_copy := none, elem_print := false }) := by
  cases o with
  | none => simp [ringbuf_init]
  | some a =>
    refine ⟨by simp [ringbuf_init], ?_⟩
    intro b hb
    injection hb with hab
    subst hab
    rfl

/-- C6 (witness): a successful initialization at concrete arguments. -/
theorem init_null_iff_and_zero_state_witness :
    ringbuf_init (some [0, 0]) 2 1 = some { buf := [0, 0], capacity := 2, elem_sz := 1,
                                            head := 0, tail := 0, count := 0,
                                            elem_copy := none, elem_print := false } :=
  (init_null_iff_and_zero_state (some [0, 0]) 2 1).2 [0, 0] rfl

/-- C7: ringbuf_full is true exactly when count = capacity and
ringbuf_empty exactly when count = 0 (both are pure functions of the state,
so neither mutates anything), and for capacity > 0 they are never both
true on the same state. -/
theorem full_empty_queries_iff (rb : ringbuf) :
    (ringbuf_full rb = true ↔ rb.count = rb.capacity) ∧
    (ringbuf_empty rb = true ↔ rb.count = 0) ∧
    (0 < rb.capacity → ¬ (ringbuf_full rb = true ∧ ringbuf_empty rb = true)) := by
  refine ⟨?_, ?_, ?_⟩
  · simp [ringbuf_full]
  · simp only [ringbuf_empty, beq_iff_eq]
    exact eq_comm
  · intro hc hb
    obtain ⟨hf, he⟩ := hb
    simp [ringbuf_full] at hf
    simp [ringbuf_empty] at he
    omega

/-- C7 (witness): mutual exclusion instantiated at a concrete full
one-slot buffer. -/
theorem full_empty_queries_iff_witness :
    ¬ (ringbuf_full rbFull1 = true ∧ ringbuf_empty rbFull1 = true) :=
  (full_empty_queries_iff rbFull1).2.2 (by decide)

/-- C8: end-to-end scenario at capacity 8 with 4-byte integer elements:
inserting 1..8 succeeds each time; inserting 9 then fails with Full and
changes nothing; one removal succeeds and yields 1; inserting 90 then
succeeds, wrapping into slot 0 (the slot formerly holding 1, whose bytes
change from the encoding of 1 to the encoding of 90 while tail wraps from
0 to 1); the contents head to tail are then 2,3,4,5,6,7,8,90; eight
removals yield exactly that sequence; and a ninth removal fails with
Empty, changing nothing. -/
theorem end_to_end_capacity8_scenario :
    ringbuf_init (some c8buf) 8 4 = some c8s0 ∧
    (enqueueAll c8s0 c8vals).2 = true ∧
    ringbuf_add_tail c8s1 (some (encI 9)) = (c8s1, -1) ∧
    readBytes c8s1.buf 0 4 = encI 1 ∧
    ringbuf_remove_head c8s1 (some (encI 0)) = (c8s2, some (encI 1), 0) ∧
    ringbuf_add_tail c8s2 (some (encI 90)) = (c8s3, 0) ∧
    readBytes c8s3.buf 0 4 = encI 90 ∧
    c8s3.head = 1 ∧
    c8s3.tail = 1 ∧
    toListRB c8s3 = [encI 2, encI 3, encI 4, encI 5, encI 6, encI 7, encI 8, encI 90] ∧
    (drain c8s3 8).2 = [encI 2, encI 3, encI 4, encI 5, encI 6, encI 7, encI 8, encI 90] ∧
    ringbuf_remove_head c8s4 (some (encI 0)) = (c8s4, none, -1) :=
  ⟨rfl, rfl, rfl, rfl, rfl, rfl, rfl, rfl, rfl, rfl, rfl, rfl⟩

/-- C9: on a non-empty buffer, remove_head with a present destination
succeeds with 0; the destination receives the element copy of the bytes at
slot head (through elem_copy when one is installed, else a byte-wise copy);
the vacated slot is overwritten with elem_sz zero bytes; head advances to
(head + 1) mod capacity; and count decreases by exactly one.  The
zero-filled bytes are observable whenever slot head lies inside the
storage region. -/
theorem remove_head_nonempty_effects (rb : ringbuf) (d : List Nat) (h : rb.count ≠ 0) :
    ringbuf_remove_head rb (some d) =
      ({ rb with
          buf := writeBytes rb.buf (rb.elem_sz * rb.head) (List.replicate rb.elem_sz 0),
          head := (rb.head + 1) % rb.capacity,
          count := rb.count - 1 },
       some (copyElem rb.elem_copy rb.elem_sz d
         (readBytes rb.buf (rb.elem_sz * rb.head) rb.elem_sz)),
       0) ∧
    (ringbuf_remove_head rb (some d)).1.count + 1 = rb.count ∧
    (rb.elem_sz * rb.head + rb.elem_sz ≤ rb.buf.length →
      readBytes (ringbuf_remove_head rb (some d)).1.buf (rb.elem_sz * rb.head) rb.elem_sz =
        List.replicate rb.elem_sz 0) := by
  have heq := remove_head_eq_of_not_empty rb (some d) h
  refine ⟨by rw [heq]; rfl, ?_, ?_⟩
  · rw [heq]
    show rb.count - 1 + 1 = rb.count
    omega
  · intro hb
    rw [heq]
    show readBytes (writeBytes rb.buf (rb.elem_sz * rb.head) (List.replicate rb.elem_sz 0))
      (rb.elem_sz * rb.head) rb.elem_sz = List.replicate rb.elem_sz 0
    have h2 := readBytes_writeBytes_self rb.buf (rb.elem_sz * rb.head)
      (List.replicate rb.elem_sz 0) (by rw [List.length_replicate]; exact hb)
    rw [List.length_replicate] at h2
    exact h2

/-- C9 (witness): removal from a concrete full one-slot buffer, showing
the returned element, the zeroed slot, the advanced head and the
decremented count. -/
theorem remove_head_nonempty_effects_witness :
    ringbuf_remove_head rbFull1 (some [0]) =
      ({ buf := [0], capacity := 1, elem_sz := 1, head := 0, tail := 0, count := 0,
         elem_copy := none, elem_print := false }, some [5], 0) ∧
    (ringbuf_remove_head rbFull1 (some [0])).1.count + 1 = rbFull1.count ∧
    readBytes (ringbuf_remove_head rbFull1 (some [0])).1.buf
      (rbFull1.elem_sz * rbFull1.head) rbFull1.elem_sz =
      List.replicate rbFull1.elem_sz 0 := by
  have h := remove_head_nonempty_effects rbFull1 [0] (by decide)
  refine ⟨?_, h.2.1, h.2.2 (by decide)⟩
  rw [h.1]
  rfl

/-- C10: on every reachable state whose capacity is 0 (count is then also
0), add_tail with a present element fails with Full and remove_head fails
with Empty, both before reaching their modular index updates, so the
expressions (tail + 1) % capacity and (head + 1) % capacity are only ever
evaluated in states with capacity > 0 and no modulo by zero occurs. -/
theorem capacity_zero_ops_always_fail (rb : ringbuf) (h : Reachable rb)
    (hc : rb.capacity = 0) :
    (∀ e, ringbuf_add_tail rb (some e) = (rb, -1)) ∧
    (∀ dest, ringbuf_remove_head rb dest = (rb, none, -1)) := by
  have hinv := reachable_inv rb h
  have hcnt : rb.count = 0 := by
    have := hinv.count_le
    omega
  exact ⟨fun e => add_tail_eq_of_full rb e (by rw [hcnt, hc]),
    fun dest => remove_head_eq_of_empty rb dest hcnt⟩

/-- C10 (witness): both failures at the concrete reachable capacity 0
state. -/
theorem capacity_zero_ops_always_fail_witness :
    ringbuf_add_tail rbCapZero (some [7]) = (rbCapZero, -1) ∧
    ringbuf_remove_head rbCapZero none = (rbCapZero, none, -1) := by
  have h := capacity_zero_ops_always_fail rbCapZero
    (Reachable.init [] 0 1 rbCapZero (by decide) rfl) rfl
  exact ⟨h.1 [7], h.2 none⟩
